import Mathlib

/-!
Verification of the metadata-driven decomposition and normalization engine of
the machine-downtime monitoring Glue job scripts
(`source/glue-job-scripts/configuration.py` and
`source/glue-job-scripts/convert_parquet.py`).

Python strings are embedded as `List Char`.  Python `str.split`, `str.join`,
`str.strip` and list indexing are embedded as executable Lean functions with
the semantics used by the source.  Fallible Python code (raised exceptions)
is embedded with `Option` / `Except` results.
-/

namespace MachineDowntime

/-- Python `s.split(sep)` for a non-empty separator, scanning left to right
and splitting at each non-overlapping occurrence of `sep`.  The `fuel`
argument bounds the recursion depth; `pySplit` below supplies `s.length`,
which always suffices because every recursive call consumes at least one
character of `s`.  An empty separator never splits (the Python API rejects
an empty separator up front). -/
def pySplitAux (sep : List Char) : Nat → List Char → List (List Char)
  | 0, s => [s]
  | fuel + 1, s =>
    if sep ≠ [] ∧ sep.isPrefixOf s then
      [] :: pySplitAux sep fuel (s.drop sep.length)
    else
      match s with
      | [] => [[]]
      | a :: t =>
        match pySplitAux sep fuel t with
        | [] => [[a]]
        | p :: ps => (a :: p) :: ps

/-- Python `s.split(sep)`. -/
def pySplit (sep s : List Char) : List (List Char) :=
  pySplitAux sep s.length s

/-- Python `sep.join(pieces)`. -/
def pyJoin (sep : List Char) : List (List Char) → List Char
  | [] => []
  | [x] => x
  | x :: xs => x ++ sep ++ pyJoin sep xs

/-- Python `s.strip()`: whitespace removed from both ends. -/
def pyStrip (s : List Char) : List Char :=
  ((s.dropWhile Char.isWhitespace).reverse.dropWhile Char.isWhitespace).reverse

/-- Python list indexing `xs[i]` with negative indices counting from the end;
out-of-range access raises `IndexError`, embedded as `none`. -/
def pyIndex (xs : List α) (i : Int) : Option α :=
  if 0 ≤ i then xs[i.toNat]?
  else if 0 ≤ (xs.length : Int) + i then xs[((xs.length : Int) + i).toNat]? else none

/-- Embeds the alias handling of `convert_data_format`
(`convert_parquet.py` lines 122-127):
`ids = name.split(delimiter); tag = ids.pop(); id = delimiter.join(ids)`.
Returns `(idPath, tag)`. -/
def decomposeMessageAlias (delimiter aliasStr : List Char) : List Char × List Char :=
  let ids := pySplit delimiter aliasStr
  (pyJoin delimiter ids.dropLast, ids.getLastD [])

/-- Start index of the last (rightmost) occurrence of `d` inside `s`,
in the sense of `str.rfind`.  This definition follows the specification
sentence "the substring after the last occurrence of the delimiter" and is
used only to compare that wording with what the source code computes. -/
def lastOccurrenceStart (d s : List Char) : Option Nat :=
  ((List.range (s.length + 1)).filter (fun i => d.isPrefixOf (s.drop i))).getLast?

/-- Embeds the loop body of `build_location_line`
(`configuration.py` lines 214-218): for each key, the guard
`len(split_ids) - 1 >= int(key)` is checked, and on success
`split_ids[int(key)]` is appended.  An `IndexError` raised by the indexing
aborts the whole computation (`none`). -/
def buildLocationLineAux (split_ids : List (List Char)) : List Int → Option (List (List Char))
  | [] => some []
  | k :: ks =>
    if (split_ids.length : Int) - 1 ≥ k then
      match pyIndex split_ids k, buildLocationLineAux split_ids ks with
      | some v, some rest => some (v :: rest)
      | _, _ => none
    else
      buildLocationLineAux split_ids ks

/-- Embeds `build_location_line` (`configuration.py` lines 205-220):
selected segments joined with the delimiter. -/
def build_location_line (split_ids : List (List Char)) (keys : List Int)
    (delimiter : List Char) : Option (List Char) :=
  (buildLocationLineAux split_ids keys).map (pyJoin delimiter)

/-- The `decomposeReference` composition used by `main`
(`configuration.py` lines 261-263): the identifier is split on the delimiter
and `build_location_line` selects the configured positions. -/
def decomposeReference (identifier delimiter : List Char) (keys : List Int) :
    Option (List Char) :=
  build_location_line (pySplit delimiter identifier) keys delimiter

/-- Python primitive values as they occur in a raw message object: the
quality and value fields are opaque JSON primitives. -/
inductive PyVal where
  | pystr (s : List Char)
  | pyint (n : Int)
  | pybool (b : Bool)
deriving DecidableEq

/-- Python `str(v)` on a primitive value. -/
def pyStr : PyVal → List Char
  | .pystr s => s
  | .pyint n => (toString n).toList
  | .pybool b => if b then ['T', 'r', 'u', 'e'] else ['F', 'a', 'l', 's', 'e']

/-- A parsed `datetime.datetime` value. -/
structure PyDateTime where
  year : Nat
  month : Nat
  day : Nat
  hour : Nat
  minute : Nat
  second : Nat
  microsecond : Nat
deriving DecidableEq

/-- Decimal digits of `n` zero-padded on the left to `width` characters. -/
def padNum (width n : Nat) : List Char :=
  let digits := (toString n).toList
  List.replicate (width - digits.length) '0' ++ digits

/-- Python `datetime.strftime(t, "%Y/%m/%d %H:%M:%S.%f")`, the canonical
timestamp format written by `convert_data_format`
(`convert_parquet.py` line 129). -/
def strftimeCanonical (t : PyDateTime) : List Char :=
  padNum 4 t.year ++ ['/'] ++ padNum 2 t.month ++ ['/'] ++ padNum 2 t.day ++ [' '] ++
    padNum 2 t.hour ++ [':'] ++ padNum 2 t.minute ++ [':'] ++ padNum 2 t.second ++
    ['.'] ++ padNum 6 t.microsecond

/-- One message object of a raw envelope, with the four fields that
`convert_data_format` reads through the configured key names
(`message_alias_key_name`, `message_timestamp_key_name`,
`message_quality_key_name`, `message_value_key_name`). -/
structure Message where
  aliasField : List Char
  timestamp : List Char
  quality : PyVal
  value : PyVal
deriving DecidableEq

/-- One converted record, as assembled by `convert_data_format`
(`convert_parquet.py` lines 126-132). -/
structure NormalizedRecord where
  id : List Char
  tag : List Char
  timestamp : List Char
  quality : PyVal
  value : List Char
deriving DecidableEq

/-- The body of the `for message in record[messages_key_name]` loop of
`convert_data_format`: `dateutil.parser.parse` is an external collaborator
and is passed in as `parseTimestamp`; a parse failure (raised exception)
is `none`. -/
def normalizeMessage (d : List Char) (parseTimestamp : List Char → Option PyDateTime)
    (m : Message) : Option NormalizedRecord :=
  match parseTimestamp m.timestamp with
  | none => none
  | some t =>
    some { id := (decomposeMessageAlias d m.aliasField).1
         , tag := (decomposeMessageAlias d m.aliasField).2
         , timestamp := strftimeCanonical t
         , quality := m.quality
         , value := pyStr m.value }

/-- Embeds `convert_data_format` (`convert_parquet.py` lines 99-135): the
list of message objects under the messages key is converted in order; an
exception raised for any message aborts the whole conversion. -/
def convert_data_format (d : List Char) (parseTimestamp : List Char → Option PyDateTime) :
    List Message → Option (List NormalizedRecord)
  | [] => some []
  | m :: rest =>
    match normalizeMessage d parseTimestamp m, convert_data_format d parseTimestamp rest with
    | some r, some rs => some (r :: rs)
    | _, _ => none

/-- The DynamoDB config item projected by `get_medata`
(`configuration.py` line 65). -/
structure FormatConfigItem where
  msgFormatDataAliasDelimiter : List Char
deriving DecidableEq

/-- The DynamoDB UI reference item projected by `get_medata`
(`configuration.py` line 81). -/
structure UIRefMappingItem where
  uiReferenceMappingLocationKeys : List Char
  uiReferenceMappingLineKeys : List Char
deriving DecidableEq

/-- The message of the `ItemNotFoundException` raised by `get_medata` and
`get_metadata`: `f"Item does not exist in {CONFIG_TABLE}."`. -/
def itemNotFoundMsg (tableName : List Char) : List Char :=
  ("Item does not exist in ".toList) ++ tableName ++ ['.']

/-- Embeds `get_medata` (`configuration.py` lines 50-92).  The store is
abstracted by the two optional items the function reads; a raised
`ItemNotFoundException` is an `Except.error` carrying its message. -/
def get_medata (tableName : List Char) (configItem : Option FormatConfigItem)
    (uiReferenceItem : Option UIRefMappingItem) :
    Except (List Char) (List Char × List Char × List Char) :=
  match configItem with
  | none => .error (itemNotFoundMsg tableName)
  | some c =>
    match uiReferenceItem with
    | some u => .ok (c.msgFormatDataAliasDelimiter,
        u.uiReferenceMappingLocationKeys, u.uiReferenceMappingLineKeys)
    | none => .ok (c.msgFormatDataAliasDelimiter, [], [])

/-- The position-list derivation used by `main`
(`configuration.py` lines 249-255): an empty keys string yields an empty
position list, otherwise the string is split on `"/"`. -/
def splitKeys (keysField : List Char) : List (List Char) :=
  if keysField = [] then [] else pySplit ['/'] keysField

/-- Embeds `has_new_s3_data` (`convert_parquet.py` lines 54-66): the S3
store is abstracted by the list of its object keys, and `KeyCount` for a
`Prefix`-filtered listing is the number of keys with that prefix. -/
def has_new_s3_data (objectKeys : List (List Char)) (partition : List Char) : Bool :=
  decide (0 < (objectKeys.filter (fun k => partition.isPrefixOf k)).length)

/-- The exceptions `main` of `convert_parquet.py` can surface, plus the
timestamp parse failure raised inside the conversion. -/
inductive JobError where
  | itemNotFound (msg : List Char)
  | noNewData (msg : List Char)
  | malformedTimestamp
deriving DecidableEq

/-- The message of the `NoNewDataException` raised by `main`
(`convert_parquet.py` line 203): `f"No new data for {PARTITION} partition."`. -/
def noNewDataMsg (partition : List Char) : List Char :=
  ("No new data for ".toList) ++ partition ++ (" partition.".toList)

/-- The metadata dict returned by `get_metadata`
(`convert_parquet.py` lines 89-96).  Only the delimiter influences the
conversion in this model, because `Message` already names the four
configured fields structurally. -/
structure MessageFormatMetadata where
  delimiter : List Char
  messagesKeyName : List Char
  messageAliasKeyName : List Char
  messageQualityKeyName : List Char
  messageTimestampKeyName : List Char
  messageValueKeyName : List Char
deriving DecidableEq

/-- The per-envelope conversion followed by the `explode` flattening of
`main` (`convert_parquet.py` lines 183-188): one flat record sequence in
envelope order then in-envelope message order. -/
def convertAllEnvelopes (d : List Char) (parseTimestamp : List Char → Option PyDateTime) :
    List (List Message) → Option (List NormalizedRecord)
  | [] => some []
  | e :: es =>
    match convert_data_format d parseTimestamp e, convertAllEnvelopes d parseTimestamp es with
    | some l, some ls => some (l ++ ls)
    | _, _ => none

/-- Embeds `main` of `convert_parquet.py` (lines 138-207): the partition
gate is evaluated first; only on its true branch is the config item read,
the data converted and written, and the job bookmark committed.  The `Bool`
in the success value records that `job.commit()` ran. -/
def convert_parquet_main (configTable : List Char) (objectKeys : List (List Char))
    (partition : List Char) (configItem : Option MessageFormatMetadata)
    (parseTimestamp : List Char → Option PyDateTime) (envelopes : List (List Message)) :
    Except JobError (List NormalizedRecord × Bool) :=
  if has_new_s3_data objectKeys partition then
    match configItem with
    | none => .error (.itemNotFound (itemNotFoundMsg configTable))
    | some md =>
      match convertAllEnvelopes md.delimiter parseTimestamp envelopes with
      | none => .error .malformedTimestamp
      | some records => .ok (records, true)
  else
    .error (.noNewData (noNewDataMsg partition))

/-- One DynamoDB scan response: the items of the page keyed by `i`, and the
`LastEvaluatedKey` continuation token (`none` on the final page). -/
def scanPage (pages : List (List α)) (i : Nat) : List α × Option Nat :=
  (pages.getD i [], if i + 1 < pages.length then some (i + 1) else none)

/-- The pagination loop shared by `scan_ui_reference_table` and
`scan_config_table` (`configuration.py` lines 102-132 and 142-170): one
unconditional scan, then further scans while the previous response carried
a continuation token.  The `fuel` argument bounds the recursion depth;
`pages.length + 1` always suffices because the token advances the page
index by one each iteration. -/
def scanLoopAux (pages : List (List α)) : Nat → Nat → List α
  | _, 0 => []
  | i, fuel + 1 =>
    match scanPage pages i with
    | (items, none) => items
    | (items, some j) => items ++ scanLoopAux pages j fuel

/-- Embeds `scan_ui_reference_table` (`configuration.py` lines 95-132),
with the store abstracted by its page sequence. -/
def scan_ui_reference_table (pages : List (List α)) : List α :=
  scanLoopAux pages 0 (pages.length + 1)

/-- Embeds `scan_config_table` (`configuration.py` lines 135-170), an
identical pagination loop over the config table pages. -/
def scan_config_table (pages : List (List α)) : List α :=
  scanLoopAux pages 0 (pages.length + 1)

/-- One row of the machine config CSV (`configuration.py` line 294). -/
structure ConfigRecord where
  id : List Char
  statusTag : List Char
  downValue : List Char
deriving DecidableEq

/-- Embeds the config fan-out loop of `main`
(`configuration.py` lines 287-294): each scanned item (already reduced to
its `id`, `machineStatusTagName`, `machineStatusDownValue` strings) has its
down value split on `","` and one record is emitted per stripped piece. -/
def buildConfigTable (items : List (List Char × List Char × List Char)) : List ConfigRecord :=
  items.flatMap (fun item =>
    (pySplit [','] item.2.2).map (fun v => ⟨item.1, item.2.1, pyStrip v⟩))

/-- A JSON value, used to state the exact shape of the QuickSight manifest
document including its key names. -/
inductive JVal where
  | jstr (s : String)
  | jbool (b : Bool)
  | jarr (a : List JVal)
  | jobj (o : List (String × JVal))

/-- Key lookup in a JSON object. -/
def jlookup (o : List (String × JVal)) (k : String) : Option JVal :=
  match o with
  | [] => none
  | (k2, v) :: rest => if k2 = k then some v else jlookup rest k

/-- Embeds `get_quicksight_manifest` (`configuration.py` lines 184-202),
returning the manifest dict exactly as the source builds it. -/
def get_quicksight_manifest (output_bucket csv_prefix file_name : String) : JVal :=
  .jobj [
    ("fileLocations", .jarr [
      .jobj [("URIs", .jarr [
        .jstr ("s3://" ++ output_bucket ++ "/" ++ csv_prefix ++ "/" ++ file_name)])]]),
    ("globalUploadSettings", .jobj [
      ("format", .jstr "CSV"),
      ("delimiter", .jstr ","),
      ("textqualifier", .jstr (String.mk [Char.ofNat 39])),
      ("containsHeader", .jstr "true")])]

/-- The `globalUploadSettings` object of a manifest document. -/
def manifestUploadSettings (m : JVal) : List (String × JVal) :=
  match m with
  | .jobj o =>
    match jlookup o "globalUploadSettings" with
    | some (.jobj g) => g
    | _ => []
  | _ => []

/-- The `URIs` list of the single file location of a manifest document. -/
def manifestFileURIs (m : JVal) : List JVal :=
  match m with
  | .jobj o =>
    match jlookup o "fileLocations" with
    | some (.jarr [JVal.jobj fl]) =>
      match jlookup fl "URIs" with
      | some (.jarr u) => u
      | _ => []
    | _ => []
  | _ => []

/-! ### Helper lemmas -/

/-- Boolean prefix test agrees with the prefix relation. -/
theorem isPrefixOf_eq_true_iff (l₁ l₂ : List Char) : l₁.isPrefixOf l₂ = true ↔ l₁ <+: l₂ := by
  induction l₁ generalizing l₂ with
  | nil => simp [List.isPrefixOf]
  | cons a as ih =>
    cases l₂ with
    | nil =>
      simp only [List.isPrefixOf, Bool.false_eq_true, false_iff]
      rintro ⟨t, ht⟩
      simp at ht
    | cons b bs =>
      simp only [List.isPrefixOf, Bool.and_eq_true, beq_iff_eq, ih]
      constructor
      · rintro ⟨rfl, t, rfl⟩
        exact ⟨t, rfl⟩
      · rintro ⟨t, ht⟩
        injection ht with h1 h2
        exact ⟨h1, t, h2⟩

/-- An in-range index makes `getElem?` return the `getD` value. -/
theorem getElemEq {α} (l : List α) (i : Nat) (d : α) (h : i < l.length) :
    l[i]? = some (l.getD i d) := by
  rw [List.getD_eq_getElem?_getD, List.getElem?_eq_getElem h]
  rfl

/-- An out-of-range `getD` returns the default. -/
theorem getDDefault {α} (l : List α) (i : Nat) (d : α) (h : l.length ≤ i) :
    l.getD i d = d := by
  rw [List.getD_eq_getElem?_getD, List.getElem?_eq_none h]
  rfl

/-- The split helper never returns the empty list. -/
theorem pySplitAux_ne_nil (sep : List Char) (fuel : Nat) (s : List Char) :
    pySplitAux sep fuel s ≠ [] := by
  cases fuel with
  | zero => simp [pySplitAux]
  | succ n =>
    simp only [pySplitAux]
    split
    · simp
    · split
      · simp
      · split <;> simp

/-- The first piece produced by `pySplitAux` is a prefix of the input. -/
theorem pySplitAux_head (sep : List Char) (fuel : Nat) (s : List Char) :
    ∃ p ps, pySplitAux sep fuel s = p :: ps ∧ p <+: s := by
  induction fuel generalizing s with
  | zero => exact ⟨s, [], rfl, ⟨[], by simp⟩⟩
  | succ n ih =>
    simp only [pySplitAux]
    split
    · exact ⟨[], _, rfl, ⟨s, rfl⟩⟩
    · split
      · exact ⟨[], [], rfl, ⟨[], rfl⟩⟩
      · rename_i a t hneg
        obtain ⟨p, ps, heq, hp⟩ := ih t
        rw [heq]
        obtain ⟨u, hu⟩ := hp
        exact ⟨a :: p, ps, rfl, ⟨u, by simp [hu]⟩⟩

/-- Joining the pieces of a split with the separator restores the input. -/
theorem pyJoin_pySplitAux (sep : List Char) (fuel : Nat) (s : List Char)
    (hle : s.length ≤ fuel) : pyJoin sep (pySplitAux sep fuel s) = s := by
  induction fuel generalizing s with
  | zero =>
    have : s = [] := List.length_eq_zero.mp (Nat.le_zero.mp hle)
    subst this
    simp [pySplitAux, pyJoin]
  | succ n ih =>
    simp only [pySplitAux]
    split
    · rename_i hc
      have hpre : sep <+: s := (isPrefixOf_eq_true_iff sep s).mp hc.2
      obtain ⟨t, ht⟩ := hpre
      have hdrop : s.drop sep.length = t := by
        rw [← ht]
        exact List.drop_left sep t
      have hsl : 0 < sep.length := List.length_pos.mpr hc.1
      obtain ⟨p, ps, heq, _⟩ := pySplitAux_head sep n (s.drop sep.length)
      have hrec := ih (s.drop sep.length) (by
        rw [List.length_drop]
        omega)
      rw [heq] at hrec ⊢
      show [] ++ sep ++ pyJoin sep (p :: ps) = s
      rw [List.nil_append, ← ht, hdrop] at *
      rw [hrec]
    · rename_i hc
      split
      · simp [pyJoin]
      · rename_i a t
        obtain ⟨p, ps, heq, _⟩ := pySplitAux_head sep n t
        have hrec := ih t (by simp at hle; omega)
        rw [heq] at hrec ⊢
        cases ps with
        | nil => simp [pyJoin] at hrec ⊢; rw [hrec]
        | cons q qs =>
          show (a :: p) ++ sep ++ pyJoin sep (q :: qs) = a :: t
          have : p ++ sep ++ pyJoin sep (q :: qs) = t := hrec
          simp only [List.cons_append, List.append_assoc] at this ⊢
          rw [this]

/-- No piece produced by the split contains the (non-empty) separator. -/
theorem pySplitAux_no_sep (sep : List Char) (hsep : sep ≠ []) (fuel : Nat) :
    ∀ (s : List Char), s.length ≤ fuel → ∀ piece ∈ pySplitAux sep fuel s, ¬ sep <:+: piece := by
  induction fuel with
  | zero =>
    intro s hle piece hmem
    have : s = [] := List.length_eq_zero.mp (Nat.le_zero.mp hle)
    subst this
    simp only [pySplitAux, List.mem_singleton] at hmem
    subst hmem
    rintro ⟨u, v, huv⟩
    have := List.append_eq_nil.mp huv
    exact hsep ((List.append_eq_nil.mp this.1).2)
  | succ n ih =>
    intro s hle piece hmem
    simp only [pySplitAux] at hmem
    split at hmem
    · rename_i hc
      rcases List.mem_cons.mp hmem with h0 | hrest
      · subst h0
        rintro ⟨u, v, huv⟩
        have := List.append_eq_nil.mp huv
        exact hsep ((List.append_eq_nil.mp this.1).2)
      · have hsl : 0 < sep.length := List.length_pos.mpr hc.1
        have hpre : sep <+: s := (isPrefixOf_eq_true_iff sep s).mp hc.2
        have hlen : sep.length ≤ s.length := hpre.length_le
        exact ih (s.drop sep.length) (by rw [List.length_drop]; omega) piece hrest
    · rename_i hc
      split at hmem
      · simp only [List.mem_singleton] at hmem
        subst hmem
        rintro ⟨u, v, huv⟩
        have := List.append_eq_nil.mp huv
        exact hsep ((List.append_eq_nil.mp this.1).2)
      · rename_i a t
        obtain ⟨p, ps, heq, hp⟩ := pySplitAux_head sep n t
        rw [heq] at hmem
        have hlet : t.length ≤ n := by simp at hle; omega
        rcases List.mem_cons.mp hmem with h0 | hrest
        · subst h0
          rintro ⟨u, v, huv⟩
          cases u with
          | nil =>
            -- the separator would be a prefix of the whole remaining string
            simp only [List.nil_append] at huv
            have hsp : sep <+: a :: p := ⟨v, huv⟩
            obtain ⟨w, hw⟩ := hp
            have hap : (a :: p) <+: (a :: t) := ⟨w, by simp [hw]⟩
            have : sep <+: (a :: t) := hsp.trans hap
            exact hc ⟨hsep, (isPrefixOf_eq_true_iff sep (a :: t)).mpr this⟩
          | cons b u2 =>
            -- the separator would sit inside the head piece of the tail split
            simp only [List.cons_append] at huv
            injection huv with hb hu
            have : sep <:+: p := ⟨u2, v, hu⟩
            exact ih t hlet p (by rw [heq]; exact List.mem_cons_self p ps) this
        · exact ih t hlet piece (by rw [heq]; exact List.mem_cons_of_mem p hrest)

/-- A string without any occurrence of the separator splits to itself. -/
theorem pySplitAux_no_occurrence (sep : List Char) (hsep : sep ≠ []) (fuel : Nat) :
    ∀ (s : List Char), s.length ≤ fuel → ¬ sep <:+: s → pySplitAux sep fuel s = [s] := by
  induction fuel with
  | zero =>
    intro s _ _
    simp [pySplitAux]
  | succ n ih =>
    intro s hle hni
    simp only [pySplitAux]
    split
    · rename_i hc
      have hpre : sep <+: s := (isPrefixOf_eq_true_iff sep s).mp hc.2
      exact absurd hpre.isInfix hni
    · split
      · rfl
      · rename_i a t hc
        have hnit : ¬ sep <:+: t := by
          rintro ⟨u, v, huv⟩
          exact hni ⟨a :: u, v, by simp [huv]⟩
        rw [ih t (by simp at hle; omega) hnit]

/-- A string containing the separator splits into at least two pieces. -/
theorem pySplit_two_pieces (sep s : List Char) (hsep : sep ≠ []) (hinf : sep <:+: s) :
    2 ≤ (pySplit sep s).length := by
  by_contra hlt
  push_neg at hlt
  have hne := pySplitAux_ne_nil sep s.length s
  have h1 : (pySplit sep s).length = 1 := by
    have : 0 < (pySplit sep s).length := List.length_pos.mpr hne
    unfold pySplit at *
    omega
  obtain ⟨x, hx⟩ := List.length_eq_one.mp h1
  have hxs : x = s := by
    have := pyJoin_pySplitAux sep s.length s le_rfl
    unfold pySplit at hx
    rw [hx] at this
    simpa [pyJoin] using this
  have := pySplitAux_no_sep sep hsep s.length s le_rfl x (by
    unfold pySplit at hx
    rw [hx]
    exact List.mem_singleton_self x)
  rw [hxs] at this
  exact this hinf

/-- Appending a last element to a non-empty piece list distributes over
`pyJoin`. -/
theorem pyJoin_append_last (sep x : List Char) :
    ∀ (l : List (List Char)), l ≠ [] → pyJoin sep (l ++ [x]) = pyJoin sep l ++ sep ++ x := by
  intro l
  induction l with
  | nil => intro h; exact absurd rfl h
  | cons b bs ih =>
    intro _
    cases bs with
    | nil => rfl
    | cons c cs =>
      have hcc : (c :: cs) ≠ [] := by simp
      show b ++ sep ++ pyJoin sep ((c :: cs) ++ [x]) = pyJoin sep (b :: c :: cs) ++ sep ++ x
      rw [ih hcc]
      show b ++ sep ++ (pyJoin sep (c :: cs) ++ sep ++ x) =
        (b ++ sep ++ pyJoin sep (c :: cs)) ++ sep ++ x
      simp [List.append_assoc]

/-! ### C1: alias decomposition -/

/-- C1 (counterexample): for the delimiter `"aa"` and the alias `"aaa"`,
the last occurrence of the delimiter starts at index 1 and the substring
after it is empty, but the code's tag is `"a"`: with overlapping
occurrences of a multi-character delimiter, the tag is not the substring
after the last occurrence of the delimiter. -/
theorem decomposeMessageAlias_last_occurrence_counterexample :
    lastOccurrenceStart ['a', 'a'] ['a', 'a', 'a'] = some 1 ∧
    List.drop (1 + 2) ['a', 'a', 'a'] = ([] : List Char) ∧
    (decomposeMessageAlias ['a', 'a'] ['a', 'a', 'a']).2 = ['a'] ∧
    (['a'] : List Char) ≠ [] := by
  refine ⟨by decide, by decide, by decide, by decide⟩

/-- C1 (amended): for every alias and non-empty delimiter, the tag is the
final segment of the left-to-right non-overlapping split (so it contains no
occurrence of the delimiter; for delimiters whose occurrences cannot
overlap, e.g. single-character delimiters, this is exactly the substring
after the last occurrence); for every alias containing the delimiter,
`idPath ++ delimiter ++ tag` reconstructs the alias exactly; for every
alias not containing the delimiter, `idPath` is empty and the tag is the
whole alias. -/
theorem decomposeMessageAlias_correct (d s : List Char) (hd : d ≠ []) :
    (¬ d <:+: (decomposeMessageAlias d s).2) ∧
    (d <:+: s → (decomposeMessageAlias d s).1 ++ d ++ (decomposeMessageAlias d s).2 = s) ∧
    (¬ d <:+: s → (decomposeMessageAlias d s).1 = [] ∧ (decomposeMessageAlias d s).2 = s) := by
  have hne : pySplit d s ≠ [] := pySplitAux_ne_nil d s.length s
  have hgl : (pySplit d s).getLastD [] = (pySplit d s).getLast hne := by
    rw [List.getLastD_eq_getLast?, List.getLast?_eq_getLast _ hne]
    rfl
  refine ⟨?_, ?_, ?_⟩
  · show ¬ d <:+: (pySplit d s).getLastD []
    rw [hgl]
    exact pySplitAux_no_sep d hd s.length s le_rfl _ (List.getLast_mem hne)
  · intro hinf
    have h2 : 2 ≤ (pySplit d s).length := pySplit_two_pieces d s hd hinf
    have hjoin : pyJoin d (pySplit d s) = s := pyJoin_pySplitAux d s.length s le_rfl
    have hsplit_eq : (pySplit d s).dropLast ++ [(pySplit d s).getLast hne] = pySplit d s :=
      List.dropLast_append_getLast hne
    have hdl : (pySplit d s).dropLast ≠ [] := by
      intro hnil
      have := List.length_dropLast (pySplit d s)
      rw [hnil] at this
      simp at this
      omega
    have happ := pyJoin_append_last d ((pySplit d s).getLast hne) (pySplit d s).dropLast hdl
    rw [hsplit_eq, hjoin] at happ
    show pyJoin d (pySplit d s).dropLast ++ d ++ (pySplit d s).getLastD [] = s
    rw [hgl]
    exact happ.symm
  · intro hni
    have hsingle : pySplit d s = [s] := pySplitAux_no_occurrence d hd s.length s le_rfl hni
    have : decomposeMessageAlias d s = ([], s) := by
      show (pyJoin d (pySplit d s).dropLast, (pySplit d s).getLastD []) = ([], s)
      rw [hsingle]
      rfl
    rw [this]
    exact ⟨rfl, rfl⟩

/-- C1 witness: the amended theorem applied to the delimiter `"/"` and the
alias `"a/b"`. -/
theorem decomposeMessageAlias_correct_witness :
    (¬ ['/'] <:+: (decomposeMessageAlias ['/'] ['a', '/', 'b']).2) ∧
    (decomposeMessageAlias ['/'] ['a', '/', 'b']).1 ++ ['/'] ++
      (decomposeMessageAlias ['/'] ['a', '/', 'b']).2 = ['a', '/', 'b'] := by
  refine ⟨(decomposeMessageAlias_correct ['/'] ['a', '/', 'b'] (by decide)).1,
    (decomposeMessageAlias_correct ['/'] ['a', '/', 'b'] (by decide)).2.1 (by decide)⟩

/-! ### C2 and C9: location/line building -/

/-- With non-negative keys, the loop of `build_location_line` selects, in
key order, exactly the segments at in-range positions and never fails. -/
theorem buildLocationLineAux_nonneg (ids : List (List Char)) (keys : List Int)
    (h : ∀ k ∈ keys, 0 ≤ k) :
    buildLocationLineAux ids keys =
      some ((keys.filter (fun k => k < (ids.length : Int))).map
        (fun k => ids.getD k.toNat [])) := by
  induction keys with
  | nil => rfl
  | cons k ks ih =>
    have hk : 0 ≤ k := h k (List.mem_cons_self k ks)
    have hks : ∀ k2 ∈ ks, 0 ≤ k2 := fun k2 hm => h k2 (List.mem_cons_of_mem k hm)
    simp only [buildLocationLineAux]
    by_cases hguard : (ids.length : Int) - 1 ≥ k
    · have hlt : k < (ids.length : Int) := by omega
      have hnat : k.toNat < ids.length := by omega
      have hidx : pyIndex ids k = some (ids.getD k.toNat []) := by
        unfold pyIndex
        rw [if_pos hk]
        exact getElemEq ids k.toNat [] hnat
      rw [if_pos hguard, hidx, ih hks]
      have hfil : (k :: ks).filter (fun k2 => k2 < (ids.length : Int)) =
          k :: ks.filter (fun k2 => k2 < (ids.length : Int)) := by
        simp [List.filter_cons, hlt]
      rw [hfil]
      rfl
    · have hge : ¬ (k < (ids.length : Int)) := by omega
      rw [if_neg hguard, ih hks]
      have hfil : (k :: ks).filter (fun k2 => k2 < (ids.length : Int)) =
          ks.filter (fun k2 => k2 < (ids.length : Int)) := by
        simp [List.filter_cons, hge]
      rw [hfil]

/-- C2: for every identifier, non-empty delimiter and list of non-negative
positions, `decomposeReference` returns (never raising) the join, with the
delimiter and in position-list order, of the segments at exactly those
positions strictly below the segment count, and the number of selected
segments is at most the number of valid positions. -/
theorem decomposeReference_nonneg_correct (identifier d : List Char) (keys : List Int)
    (hd : d ≠ []) (hnn : ∀ k ∈ keys, 0 ≤ k) :
    decomposeReference identifier d keys =
      some (pyJoin d ((keys.filter (fun k => k < ((pySplit d identifier).length : Int))).map
        (fun k => (pySplit d identifier).getD k.toNat []))) ∧
    ((keys.filter (fun k => k < ((pySplit d identifier).length : Int))).map
        (fun k => (pySplit d identifier).getD k.toNat [])).length ≤
      (keys.filter (fun k => k < ((pySplit d identifier).length : Int))).length := by
  constructor
  · show (buildLocationLineAux (pySplit d identifier) keys).map (pyJoin d) = _
    rw [buildLocationLineAux_nonneg (pySplit d identifier) keys hnn]
    rfl
  · rw [List.length_map]

/-- C2 witness: identifier `"a/b"`, delimiter `"/"`, positions `[0, 1, 5]`;
the out-of-range position 5 is skipped and the result joins both segments. -/
theorem decomposeReference_nonneg_correct_witness :
    decomposeReference ['a', '/', 'b'] ['/'] [0, 1, 5] = some ['a', '/', 'b'] := by
  have h := (decomposeReference_nonneg_correct ['a', '/', 'b'] ['/'] [0, 1, 5]
    (by decide) (by decide)).1
  exact h.trans (by decide)

/-- C9: the guard `len(split_ids) - 1 >= int(key)` of `build_location_line`
admits every negative position: for `-len ≤ k ≤ -1` the segment at index
`len + k` (counting from the end) is included rather than skipped, and for
`k < -len` the indexing raises `IndexError`, so the never-raises guarantee
holds only for non-negative positions. -/
theorem build_location_line_negative_keys (ids : List (List Char)) (d : List Char)
    (k : Int) (hneg : k ≤ -1) :
    ((ids.length : Int) - 1 ≥ k) ∧
    (-(ids.length : Int) ≤ k →
      build_location_line ids [k] d =
        some (ids.getD (((ids.length : Int) + k).toNat) [])) ∧
    (k < -(ids.length : Int) → build_location_line ids [k] d = none) := by
  have hlen : (0 : Int) ≤ (ids.length : Int) := Int.natCast_nonneg _
  have hguard : (ids.length : Int) - 1 ≥ k := by omega
  have hknn : ¬ (0 ≤ k) := by omega
  refine ⟨hguard, ?_, ?_⟩
  · intro hin
    have hnat : ((ids.length : Int) + k).toNat < ids.length := by omega
    have hidx : pyIndex ids k = some (ids.getD (((ids.length : Int) + k).toNat) []) := by
      unfold pyIndex
      rw [if_neg hknn, if_pos (by omega : (0 : Int) ≤ (ids.length : Int) + k)]
      exact getElemEq ids _ [] hnat
    show (buildLocationLineAux ids [k]).map (pyJoin d) = _
    simp only [buildLocationLineAux]
    rw [if_pos hguard, hidx]
    rfl
  · intro hout
    have hidx : pyIndex ids k = none := by
      unfold pyIndex
      rw [if_neg hknn, if_neg (by omega : ¬ (0 : Int) ≤ (ids.length : Int) + k)]
    show (buildLocationLineAux ids [k]).map (pyJoin d) = _
    simp only [buildLocationLineAux]
    rw [if_pos hguard, hidx]
    rfl

/-- C9 witness: on the two-segment list `["x", "y"]`, position `-1` selects
the final segment `"y"`, while position `-3` raises. -/
theorem build_location_line_negative_keys_witness :
    build_location_line [['x'], ['y']] [-1] ['/'] = some ['y'] ∧
    build_location_line [['x'], ['y']] [-3] ['/'] = none := by
  constructor
  · have h := (build_location_line_negative_keys [['x'], ['y']] ['/'] (-1)
      (by decide)).2.1 (by decide)
    exact h.trans (by decide)
  · exact (build_location_line_negative_keys [['x'], ['y']] ['/'] (-3)
      (by decide)).2.2 (by decide)

/-! ### C3: record normalization -/

/-- C3: for every envelope (its message list), delimiter, and timestamp
parser, `convert_data_format` emits exactly one record per message object
in input order (stated with `List.Forall₂`, which forces equal lengths and
in-order pointwise correspondence): the record's timestamp is the parsed
timestamp reformatted to the canonical `"YYYY/MM/DD HH:MM:SS.ffffff"`
string, its quality is the quality field copied verbatim, and its value is
the string representation of the value field; if any message's timestamp is
unparseable the conversion raises instead of producing a default. -/
theorem convert_data_format_correct (d : List Char)
    (parseTimestamp : List Char → Option PyDateTime) (msgs : List Message) :
    ((∀ m ∈ msgs, (parseTimestamp m.timestamp).isSome) →
      ∃ l, convert_data_format d parseTimestamp msgs = some l ∧
        List.Forall₂ (fun (m : Message) (r : NormalizedRecord) =>
          ∃ t, parseTimestamp m.timestamp = some t ∧
            r.id = (decomposeMessageAlias d m.aliasField).1 ∧
            r.tag = (decomposeMessageAlias d m.aliasField).2 ∧
            r.timestamp = strftimeCanonical t ∧
            r.quality = m.quality ∧
            r.value = pyStr m.value) msgs l) ∧
    ((∃ m ∈ msgs, parseTimestamp m.timestamp = none) →
      convert_data_format d parseTimestamp msgs = none) := by
  constructor
  · intro hall
    induction msgs with
    | nil => exact ⟨[], rfl, List.Forall₂.nil⟩
    | cons m rest ih =>
      have hm : (parseTimestamp m.timestamp).isSome :=
        hall m (List.mem_cons_self m rest)
      obtain ⟨t, ht⟩ := Option.isSome_iff_exists.mp hm
      obtain ⟨l, hl, hfa⟩ := ih (fun m2 hm2 => hall m2 (List.mem_cons_of_mem m hm2))
      refine ⟨{ id := (decomposeMessageAlias d m.aliasField).1
              , tag := (decomposeMessageAlias d m.aliasField).2
              , timestamp := strftimeCanonical t
              , quality := m.quality
              , value := pyStr m.value } :: l, ?_, ?_⟩
      · simp only [convert_data_format, normalizeMessage, ht, hl]
      · exact List.Forall₂.cons ⟨t, ht, rfl, rfl, rfl, rfl, rfl⟩ hfa
  · intro hex
    induction msgs with
    | nil => simp at hex
    | cons m rest ih =>
      obtain ⟨m0, hmem, hnone⟩ := hex
      rcases List.mem_cons.mp hmem with h0 | hrest
      · subst h0
        have hnorm : normalizeMessage d parseTimestamp m0 = none := by
          simp [normalizeMessage, hnone]
        cases hrec : convert_data_format d parseTimestamp rest <;>
          simp [convert_data_format, hnorm, hrec]
      · have hrec : convert_data_format d parseTimestamp rest = none :=
          ih ⟨m0, hrest, hnone⟩
        cases hnorm : normalizeMessage d parseTimestamp m <;>
          simp [convert_data_format, hnorm, hrec]

/-- C3 witness: a one-message envelope with a parseable timestamp converts
successfully. -/
theorem convert_data_format_correct_witness :
    (convert_data_format ['/']
      (fun ts => if ts = ['t'] then some ⟨2021, 3, 4, 5, 6, 7, 8⟩ else none)
      [⟨['a', '/', 'b'], ['t'], PyVal.pybool true, PyVal.pyint 42⟩]).isSome = true := by
  obtain ⟨l, hl, _⟩ := (convert_data_format_correct ['/']
    (fun ts => if ts = ['t'] then some ⟨2021, 3, 4, 5, 6, 7, 8⟩ else none)
    [⟨['a', '/', 'b'], ['t'], PyVal.pybool true, PyVal.pyint 42⟩]).1 (by decide)
  rw [hl]
  rfl

/-! ### C4: pagination loops -/

/-- The scan loop started at page `i` collects exactly the items of the
pages from `i` on, in page order then within-page order. -/
theorem scanLoopAux_drop {α} (pages : List (List α)) :
    ∀ (fuel i : Nat), pages.length - i < fuel →
      scanLoopAux pages i fuel = (pages.drop i).flatten := by
  intro fuel
  induction fuel with
  | zero => intro i h; omega
  | succ n ih =>
    intro i h
    simp only [scanLoopAux, scanPage]
    by_cases hi : i + 1 < pages.length
    · rw [if_pos hi]
      have hilt : i < pages.length := by omega
      have hrec := ih (i + 1) (by omega)
      show pages.getD i [] ++ scanLoopAux pages (i + 1) n = (pages.drop i).flatten
      rw [hrec]
      rw [List.drop_eq_getElem_cons hilt]
      rw [List.flatten_cons]
      have : pages.getD i [] = pages[i] := by
        rw [List.getD_eq_getElem?_getD, List.getElem?_eq_getElem hilt]
        rfl
      rw [this]
    · rw [if_neg hi]
      show pages.getD i [] = (pages.drop i).flatten
      by_cases hilt : i < pages.length
      · have hlast : pages.length = i + 1 := by omega
        rw [List.drop_eq_getElem_cons hilt]
        have hnil : pages.drop (i + 1) = [] := by
          rw [List.drop_eq_nil_iff]
          omega
        rw [hnil, List.flatten_cons, List.flatten_nil, List.append_nil]
        rw [List.getD_eq_getElem?_getD, List.getElem?_eq_getElem hilt]
        rfl
      · have hge : pages.length ≤ i := by omega
        rw [getDDefault pages i [] hge]
        rw [List.drop_eq_nil_iff.mpr hge]
        rfl

/-- C4: both paginated scan loops return exactly the concatenation of all
page item lists, in page order then within-page order — every item of
every page exactly once, for zero, one, or many pages — and the continue
condition is the presence of the previous page's continuation token (the
loop model advances precisely while `scanPage` returns a token). -/
theorem scan_tables_collect_all_pages {α} (pages : List (List α)) :
    scan_ui_reference_table pages = pages.flatten ∧
    scan_config_table pages = pages.flatten ∧
    (scan_config_table pages).length = (pages.map List.length).sum := by
  have h : scanLoopAux pages 0 (pages.length + 1) = (pages.drop 0).flatten :=
    scanLoopAux_drop pages (pages.length + 1) 0 (by omega)
  rw [List.drop_zero] at h
  refine ⟨h, h, ?_⟩
  show (scanLoopAux pages 0 (pages.length + 1)).length = _
  rw [h, List.length_flatten]

/-! ### C5: metadata resolution -/

/-- C5: if the required config item is absent, `get_medata` raises
`ItemNotFoundException` with a message naming the missing table and returns
no schema; if only the optional UI reference item is absent, resolution
succeeds with empty location/line key strings, which derive empty position
lists rather than raising. -/
theorem get_medata_absent_items (tbl : List Char) (ui : Option UIRefMappingItem)
    (c : FormatConfigItem) :
    (get_medata tbl none ui = .error (itemNotFoundMsg tbl) ∧
      tbl <:+: itemNotFoundMsg tbl) ∧
    (get_medata tbl (some c) none = .ok (c.msgFormatDataAliasDelimiter, [], []) ∧
      splitKeys [] = ([] : List (List Char))) := by
  refine ⟨⟨rfl, ⟨"Item does not exist in ".toList, ['.'], rfl⟩⟩, rfl, rfl⟩

/-! ### C6 and C10: the partition gate -/

/-- The gate is true exactly when some object key carries the partition
prefix. -/
theorem has_new_s3_data_iff (objectKeys : List (List Char)) (partition : List Char) :
    has_new_s3_data objectKeys partition = true ↔
      ∃ k ∈ objectKeys, partition <+: k := by
  unfold has_new_s3_data
  rw [decide_eq_true_iff]
  rw [List.length_pos]
  constructor
  · intro hne
    obtain ⟨k, hk⟩ := List.exists_mem_of_ne_nil _ hne
    have := List.mem_filter.mp hk
    exact ⟨k, this.1, (isPrefixOf_eq_true_iff partition k).mp this.2⟩
  · rintro ⟨k, hmem, hpre⟩
    intro hnil
    have : k ∈ List.filter (fun k2 => partition.isPrefixOf k2) objectKeys :=
      List.mem_filter.mpr ⟨hmem, (isPrefixOf_eq_true_iff partition k).mpr hpre⟩
    rw [hnil] at this
    simp at this

/-- C6: `has_new_s3_data` is true iff at least one object exists under the
partition prefix (false when the key count is zero; the embedding is a pure
function of the store, performing no writes), and when it is false the
conversion job raises `NoNewDataException` — an error result carrying no
converted records, no written output, and no bookmark commit. -/
theorem has_new_s3_data_gate (objectKeys : List (List Char))
    (partition configTable : List Char) (configItem : Option MessageFormatMetadata)
    (parseTimestamp : List Char → Option PyDateTime) (envelopes : List (List Message)) :
    (has_new_s3_data objectKeys partition = true ↔
      ∃ k ∈ objectKeys, partition <+: k) ∧
    (has_new_s3_data objectKeys partition = false →
      convert_parquet_main configTable objectKeys partition configItem
        parseTimestamp envelopes = .error (.noNewData (noNewDataMsg partition))) := by
  refine ⟨has_new_s3_data_iff objectKeys partition, ?_⟩
  intro hfalse
  unfold convert_parquet_main
  rw [hfalse]
  rfl

/-- C6 witness: with no object keys at all, the gate is false and the job
raises `NoNewDataException` for the partition. -/
theorem has_new_s3_data_gate_witness :
    convert_parquet_main ['t'] [] ['2'] none (fun _ => none) [] =
      .error (.noNewData (noNewDataMsg ['2'])) := by
  exact (has_new_s3_data_gate [] ['2'] ['t'] none (fun _ => none) []).2 (by decide)

/-- C10: the partition gate is evaluated before the config read: whenever
no object exists under the partition prefix, the run fails with
`NoNewDataException` for every config-store state (so in particular with a
missing config item it never fails with `ItemNotFoundException`), and the
config read, transformation, output write and bookmark commit happen only
on the gate's true branch. -/
theorem convert_main_gate_before_config (configTable : List Char)
    (objectKeys : List (List Char)) (partition : List Char)
    (parseTimestamp : List Char → Option PyDateTime) (envelopes : List (List Message))
    (hempty : ∀ k ∈ objectKeys, ¬ partition <+: k) :
    (∀ configItem, convert_parquet_main configTable objectKeys partition configItem
        parseTimestamp envelopes = .error (.noNewData (noNewDataMsg partition))) ∧
    convert_parquet_main configTable objectKeys partition none
        parseTimestamp envelopes ≠ .error (.itemNotFound (itemNotFoundMsg configTable)) := by
  have hfalse : has_new_s3_data objectKeys partition = false := by
    rw [Bool.eq_false_iff]
    intro htrue
    obtain ⟨k, hmem, hpre⟩ := (has_new_s3_data_iff objectKeys partition).mp htrue
    exact hempty k hmem hpre
  have hmain : ∀ configItem, convert_parquet_main configTable objectKeys partition configItem
      parseTimestamp envelopes = .error (.noNewData (noNewDataMsg partition)) := by
    intro configItem
    unfold convert_parquet_main
    rw [hfalse]
    rfl
  refine ⟨hmain, ?_⟩
  rw [hmain none]
  intro hcontra
  have := Except.error.inj hcontra
  cases this

/-- C10 witness: an empty partition (one object key without the partition
prefix) together with a missing config item yields `NoNewDataException`,
not `ItemNotFoundException`. -/
theorem convert_main_gate_before_config_witness :
    convert_parquet_main ['t'] [['b']] ['2'] none (fun _ => none) [] =
        .error (.noNewData (noNewDataMsg ['2'])) ∧
    convert_parquet_main ['t'] [['b']] ['2'] none (fun _ => none) [] ≠
        .error (.itemNotFound (itemNotFoundMsg ['t'])) := by
  refine ⟨(convert_main_gate_before_config ['t'] [['b']] ['2'] (fun _ => none) []
      (by decide)).1 none,
    (convert_main_gate_before_config ['t'] [['b']] ['2'] (fun _ => none) []
      (by decide)).2⟩

/-! ### C7: config table fan-out -/

/-- Splitting on a single-character separator yields one more piece than
the separator's occurrence count. -/
theorem pySplitAux_single_count (c : Char) (fuel : Nat) :
    ∀ (s : List Char), s.length ≤ fuel →
      (pySplitAux [c] fuel s).length = s.count c + 1 := by
  induction fuel with
  | zero =>
    intro s hle
    have : s = [] := List.length_eq_zero.mp (Nat.le_zero.mp hle)
    subst this
    simp [pySplitAux]
  | succ n ih =>
    intro s hle
    simp only [pySplitAux]
    split
    · rename_i hc
      have hpre : [c] <+: s := (isPrefixOf_eq_true_iff [c] s).mp hc.2
      obtain ⟨t, ht⟩ := hpre
      subst ht
      have hlet : t.length ≤ n := by
        simp only [List.singleton_append, List.length_cons] at hle
        omega
      have hrec := ih t hlet
      simp only [List.singleton_append, List.length_nil, List.length_cons,
        List.drop_succ_cons, List.drop_zero, Nat.zero_add, List.count_cons_self]
      rw [hrec]
    · rename_i hc
      split
      · simp
      · rename_i a t
        have hne : ¬ (c = a) := by
          intro heq
          subst heq
          exact hc ⟨by simp, by simp [List.isPrefixOf]⟩
        obtain ⟨p, ps, heq, _⟩ := pySplitAux_head [c] n t
        rw [heq]
        have hcount := ih t (by simp at hle; omega)
        rw [heq] at hcount
        simp only [List.length_cons] at hcount ⊢
        rw [List.count_cons_of_ne hne]
        omega

/-- C7: each scanned config item's down value is split on `","`, each piece
is stripped of surrounding whitespace, and exactly one record sharing the
item's id and status tag is emitted per piece — `N` comma-separated values
(count of commas plus one) yield exactly `N` records, `"10, 20,30"` yields
the three trimmed values, and an empty down value yields exactly one record
with an empty down value. -/
theorem buildConfigTable_fanout (i st dv : List Char) :
    buildConfigTable [(i, st, dv)] =
      (pySplit [','] dv).map (fun v => ⟨i, st, pyStrip v⟩) ∧
    (buildConfigTable [(i, st, dv)]).length = dv.count ',' + 1 ∧
    (∀ r ∈ buildConfigTable [(i, st, dv)], r.id = i ∧ r.statusTag = st) ∧
    buildConfigTable [(i, st, [])] = [⟨i, st, []⟩] ∧
    buildConfigTable [(i, st, ['1', '0', ',', ' ', '2', '0', ',', '3', '0'])] =
      [⟨i, st, ['1', '0']⟩, ⟨i, st, ['2', '0']⟩, ⟨i, st, ['3', '0']⟩] := by
  have hmap : buildConfigTable [(i, st, dv)] =
      (pySplit [','] dv).map (fun v => ⟨i, st, pyStrip v⟩) := by
    simp [buildConfigTable]
  refine ⟨hmap, ?_, ?_, rfl, rfl⟩
  · rw [hmap, List.length_map]
    exact pySplitAux_single_count ',' dv.length dv le_rfl
  · intro r hr
    rw [hmap] at hr
    obtain ⟨v, _, hv⟩ := List.mem_map.mp hr
    rw [← hv]
    exact ⟨rfl, rfl⟩

/-- C7 witness: the fields of the single record emitted for the down value
`"1"` share the item's id and status tag. -/
theorem buildConfigTable_fanout_witness :
    ConfigRecord.id ⟨['i'], ['s'], ['1']⟩ = ['i'] ∧
    ConfigRecord.statusTag ⟨['i'], ['s'], ['1']⟩ = ['s'] := by
  exact (buildConfigTable_fanout ['i'] ['s'] ['1']).2.2.1 ⟨['i'], ['s'], ['1']⟩ (by decide)

/-! ### C8: the QuickSight manifest -/

/-- C8 (counterexample): the manifest's upload settings contain no
`textQualifier` key (the source writes `textqualifier`, all lowercase), and
the value at `containsHeader` is the JSON string `"true"`, not the boolean
`true`. -/
theorem get_quicksight_manifest_counterexample :
    jlookup (manifestUploadSettings (get_quicksight_manifest "b" "p" "f"))
        "textQualifier" = none ∧
    jlookup (manifestUploadSettings (get_quicksight_manifest "b" "p" "f"))
        "containsHeader" = some (JVal.jstr "true") ∧
    some (JVal.jstr "true") ≠ some (JVal.jbool true) := by
  refine ⟨rfl, rfl, ?_⟩
  intro h
  cases Option.some.inj h

/-- C8 (amended): for every file name (and bucket and prefix), the manifest
is the fixed-shape document whose single file location URI points at the
produced file, and whose `globalUploadSettings` hold `format = "CSV"`,
`delimiter = ","`, the key `textqualifier` (all lowercase) with the
single-quote string, and the key `containsHeader` with the JSON string
`"true"`. -/
theorem get_quicksight_manifest_shape (b p f : String) :
    manifestFileURIs (get_quicksight_manifest b p f) =
      [JVal.jstr ("s3://" ++ b ++ "/" ++ p ++ "/" ++ f)] ∧
    jlookup (manifestUploadSettings (get_quicksight_manifest b p f)) "format" =
      some (JVal.jstr "CSV") ∧
    jlookup (manifestUploadSettings (get_quicksight_manifest b p f)) "delimiter" =
      some (JVal.jstr ",") ∧
    jlookup (manifestUploadSettings (get_quicksight_manifest b p f)) "textqualifier" =
      some (JVal.jstr (String.mk [Char.ofNat 39])) ∧
    jlookup (manifestUploadSettings (get_quicksight_manifest b p f)) "containsHeader" =
      some (JVal.jstr "true") := by
  exact ⟨rfl, rfl, rfl, rfl, rfl⟩

end MachineDowntime
